import Mathlib

/-!
Verification development for the mcp-yeoman server (TypeScript source:
the MCP server exposing yeoman_search_templates / yeoman_get_generator_options /
yeoman_generate).

The pure algorithmic core of the source is embedded shallowly:
`parseGeneratorHelp`, `extractEnumValues`, `isOptionRequired`,
`checkRequiredArguments`, `cleanOutput`, the post-spawn output classification
of `runYeomanGenerator`, the `mergedOptions` construction and the positional
argument assembly of the `yeoman_generate` tool handler.

JavaScript strings are modelled as `List Char` internally and `String` at the
API; JavaScript regular expressions are modelled by a small backtracking
matcher (`matchP`) over a pattern syntax tree, transliterated from the regex
literals in the source and following the JS engine's ordering: greedy
quantifiers try the longest repetition first, lazy quantifiers the shortest,
alternatives left to right, and `String.match` / repeated `RegExp.exec` find
the leftmost match.  Character classes are interpreted at ASCII scope, which
covers every literal and marker the source matches on.
-/

set_option maxRecDepth 16000

namespace McpYeoman

/-! ## Character classes (ASCII scope of the JS classes `\d`, `\w`, `\s`, …) -/

def isDigitCh (c : Char) : Bool := '0' ≤ c && c ≤ '9'

def isWordCh (c : Char) : Bool :=
  ('a' ≤ c && c ≤ 'z') || ('A' ≤ c && c ≤ 'Z') || isDigitCh c || c = '_'

def isWsCh (c : Char) : Bool :=
  c = ' ' || c = '\t' || c = '\n' || c = '\r' || c = '\x0b' || c = '\x0c'

inductive CharCls where
  | ws      -- `\s` (and `[\s\n]`, which is the same set)
  | word    -- `\w`
  | nonNL   -- `[^\n]`
  | nonWs   -- `\S`
  | wordWs  -- `[\w\s]`
deriving DecidableEq

def memCls : CharCls → Char → Bool
  | .ws, c => isWsCh c
  | .word, c => isWordCh c
  | .nonNL, c => c ≠ '\n'
  | .nonWs, c => !isWsCh c
  | .wordWs, c => isWordCh c || isWsCh c

/-! ## Generic string helpers mirroring JS semantics -/

/-- JS `String.prototype.includes`: `sub` occurs as a contiguous substring. -/
def listContains (sub : List Char) : List Char → Bool
  | [] => sub.isPrefixOf []
  | c :: t => sub.isPrefixOf (c :: t) || listContains sub t

/-- JS `s.includes(sub)` on `String`. -/
def strContains (s sub : String) : Bool := listContains sub.data s.data

/-- JS `String.prototype.trim` (ASCII whitespace scope). -/
def jsTrim (l : List Char) : List Char :=
  ((l.dropWhile isWsCh).reverse.dropWhile isWsCh).reverse

/-- JS `String.prototype.split` with a one-character separator. -/
def splitOnCh (sep : Char) : List Char → List (List Char)
  | [] => [[]]
  | c :: t =>
    if c = sep then [] :: splitOnCh sep t
    else
      match splitOnCh sep t with
      | [] => [[c]]
      | seg :: rest => (c :: seg) :: rest

theorem splitOnCh_ne_nil (sep : Char) (l : List Char) : splitOnCh sep l ≠ [] := by
  cases l with
  | nil => simp [splitOnCh]
  | cons c t =>
    simp only [splitOnCh]
    split
    · simp
    · split <;> simp_all

/-! ## A small backtracking regex matcher

Each JS regex literal of the source is transliterated into a `Pat` below.
The matcher is written in continuation-passing style; the first success in
JS backtracking order is returned.  Capture groups are numbered as in the
source regexes; an unset group is `none` (JS `undefined`). -/

abbrev Caps := Nat → Option (List Char)

def capsEmpty : Caps := fun _ => none

def capsSet (cs : Caps) (i : Nat) (v : List Char) : Caps :=
  fun j => if j = i then some v else cs j

inductive Pat where
  | eps : Pat                    -- empty
  | lit : List Char → Pat        -- literal text
  | litCI : List Char → Pat      -- literal text, case-insensitive (`/i`)
  | cls : CharCls → Pat          -- a single character of a class
  | plus : CharCls → Pat         -- greedy `X+` over a class
  | lazyGrp : Nat → Pat          -- lazy `([^]*?)` / `(.*?)` capturing any chars
  | alt : Pat → Pat → Pat        -- `a|b`, left first
  | seq : Pat → Pat → Pat
  | grp : Nat → Pat → Pat        -- capturing group `( … )`
  | eos : Pat                    -- `$` (no `/m` flag: end of input)

/-- Greedy `(?:a)?` and greedy `a*` (via `alt (plus c) eps`) building blocks. -/
def patOpt (p : Pat) : Pat := .alt p .eps

/-- Greedy `X*` over a class: longest first, down to the empty repetition. -/
def patStar (c : CharCls) : Pat := .alt (.plus c) .eps

def ciEqCh (a b : Char) : Bool := a.toLower = b.toLower

def ciIsPrefix : List Char → List Char → Bool
  | [], _ => true
  | _ :: _, [] => false
  | a :: w, b :: s => ciEqCh a b && ciIsPrefix w s

/-- Backtracking for a greedy one-or-more class repetition: the maximal run is
tried first; on continuation failure one character is given back at a time.
The first argument not yet given back is `consumedRev` (in reverse order). -/
def tryShrink (k : List Char → Option α) : List Char → List Char → Option α
  | [], _ => none
  | a :: consumedRev, rest =>
    match k rest with
    | some r => some r
    | none => tryShrink k consumedRev (a :: rest)

/-- Backtracking for a lazy any-character repetition: the empty consumption is
tried first and grown one character at a time.  `acc` holds the consumed
characters in reverse order. -/
def lazyTry (k : List Char → List Char → Option α) : List Char → List Char → Option α
  | acc, [] => k acc.reverse []
  | acc, a :: t =>
    match k acc.reverse (a :: t) with
    | some r => some r
    | none => lazyTry k (a :: acc) t

def matchP : Pat → List Char → Caps → (List Char → Caps → Option α) → Option α
  | .eps, s, cs, k => k s cs
  | .lit w, s, cs, k => if w.isPrefixOf s then k (s.drop w.length) cs else none
  | .litCI w, s, cs, k => if ciIsPrefix w s then k (s.drop w.length) cs else none
  | .cls c, s, cs, k =>
    match s with
    | [] => none
    | a :: t => if memCls c a then k t cs else none
  | .plus c, s, cs, k =>
    let run := s.takeWhile (memCls c)
    tryShrink (fun rest => k rest cs) run.reverse (s.drop run.length)
  | .lazyGrp i, s, cs, k =>
    lazyTry (fun consumed rest => k rest (capsSet cs i consumed)) [] s
  | .alt p q, s, cs, k =>
    match matchP p s cs k with
    | some r => some r
    | none => matchP q s cs k
  | .seq p q, s, cs, k => matchP p s cs (fun r cs2 => matchP q r cs2 k)
  | .grp i p, s, cs, k =>
    matchP p s cs (fun r cs2 => k r (capsSet cs2 i (s.take (s.length - r.length))))
  | .eos, s, cs, k =>
    match s with
    | [] => k s cs
    | _ :: _ => none

/-- Anchored match at the start of `s`: length of the full match and captures. -/
def matchAt (p : Pat) (s : List Char) : Option (Nat × Caps) :=
  matchP p s capsEmpty (fun rest cs => some (s.length - rest.length, cs))

/-- Leftmost match (JS `String.match` without `/g`, or the first `exec`):
the suffix of the input where the match starts, its length and its captures. -/
def searchFrom (p : Pat) : List Char → Option (List Char × Nat × Caps)
  | [] =>
    match matchAt p [] with
    | some (len, cs) => some ([], len, cs)
    | none => none
  | a :: t =>
    match matchAt p (a :: t) with
    | some (len, cs) => some (a :: t, len, cs)
    | none => searchFrom p t

/-- All matches in order (JS `String.match` with `/g` / an `exec` loop),
advancing past each match; an empty match advances by one character (the
patterns iterated in the source can never match the empty string). -/
def allMatchesAux (p : Pat) : Nat → List Char → List (List Char × Nat × Caps)
  | 0, _ => []
  | fuel + 1, s =>
    match searchFrom p s with
    | none => []
    | some (suf, len, cs) => (suf, len, cs) :: allMatchesAux p fuel (suf.drop (max len 1))

def allMatches (p : Pat) (s : List Char) : List (List Char × Nat × Caps) :=
  allMatchesAux p (s.length + 1) s

/-- The text of a full match returned by `searchFrom`/`allMatches`. -/
def fullMatchText (m : List Char × Nat × Caps) : List Char := m.1.take m.2.1

/-! ## The regex literals of the source, transliterated

Source: `parseGeneratorHelp`, `runYeomanGenerator` and helpers. -/

/-- `/Usage:[\s\n]+yo\s+(\w+)\s+([^\n]+)/` -/
def usagePat : Pat :=
  .seq (.lit "Usage:".data) (.seq (.plus .ws) (.seq (.lit "yo".data)
    (.seq (.plus .ws) (.seq (.grp 1 (.plus .word))
      (.seq (.plus .ws) (.grp 2 (.plus .nonNL)))))))

/-- `/\[\<(\w+)\>\]/g` (argument placeholders on the usage line) -/
def usageArgPat : Pat :=
  .seq (.lit "[<".data) (.seq (.grp 1 (.plus .word)) (.lit ">]".data))

/-- `/Arguments:([^]*?)(\n\n|\n$|$)/` -/
def argsSecPat : Pat :=
  .seq (.lit "Arguments:".data)
    (.seq (.lazyGrp 1)
      (.grp 2 (.alt (.lit "\n\n".data) (.alt (.seq (.lit "\n".data) .eos) .eos))))

/-- `/Options:([^]*?)(\n\nArguments:|\n\n|\n$|$)/` -/
def optionsSecPat : Pat :=
  .seq (.lit "Options:".data)
    (.seq (.lazyGrp 1)
      (.grp 2 (.alt (.lit "\n\nArguments:".data)
        (.alt (.lit "\n\n".data) (.alt (.seq (.lit "\n".data) .eos) .eos)))))

/-- `/\s*(\w+)\s*#\s*([^]*?)(?:\s*Type:\s*(\w+))?(?:\s*Required:\s*(true|false))?(?:\n|$)/g` -/
def argEntryPat : Pat :=
  .seq (patStar .ws) (.seq (.grp 1 (.plus .word)) (.seq (patStar .ws)
    (.seq (.lit "#".data) (.seq (patStar .ws) (.seq (.lazyGrp 2)
      (.seq (patOpt (.seq (patStar .ws) (.seq (.lit "Type:".data)
        (.seq (patStar .ws) (.grp 3 (.plus .word))))))
        (.seq (patOpt (.seq (patStar .ws) (.seq (.lit "Required:".data)
          (.seq (patStar .ws) (.grp 4 (.alt (.lit "true".data) (.lit "false".data)))))))
          (.alt (.lit "\n".data) .eos))))))))

/-- `/\s*(?:-(\w),)?\s*--(\S+)\s*#\s*([^]*?)(?:\s*Default:\s*(\S+))?(?:\n|$)/g` -/
def optionEntryPat : Pat :=
  .seq (patStar .ws)
    (.seq (patOpt (.seq (.lit "-".data) (.seq (.grp 1 (.cls .word)) (.lit ",".data))))
      (.seq (patStar .ws) (.seq (.lit "--".data) (.seq (.grp 2 (.plus .nonWs))
        (.seq (patStar .ws) (.seq (.lit "#".data) (.seq (patStar .ws)
          (.seq (.lazyGrp 3)
            (.seq (patOpt (.seq (patStar .ws) (.seq (.lit "Default:".data)
              (.seq (patStar .ws) (.grp 4 (.plus .nonWs))))))
              (.alt (.lit "\n".data) .eos))))))))))

/-- `/(?:Questions|Prompts|Inputs):(.*?)(?:\n\n|\n$|$)/is` -/
def promptSecPat : Pat :=
  .seq (.alt (.litCI "Questions".data) (.alt (.litCI "Prompts".data) (.litCI "Inputs".data)))
    (.seq (.litCI ":".data)
      (.seq (.lazyGrp 1)
        (.alt (.lit "\n\n".data) (.alt (.seq (.lit "\n".data) .eos) .eos))))

/-- `/\?\s+[\w\s]+/` (existence of a match is what the source tests) -/
def questionPromptPat : Pat :=
  .seq (.lit "?".data) (.seq (.plus .ws) (.plus .wordWs))

/-- `/>\s+[\w\s]+/` -/
def selectPromptPat : Pat :=
  .seq (.lit ">".data) (.seq (.plus .ws) (.plus .wordWs))

/-! ## Data model -/

structure ParsedArg where
  name : String
  type : String
  required : Bool
  description : String
deriving DecidableEq, Repr

structure ParsedOption where
  name : String
  flag : String
  description : String
  default : Option String
  required : Option Bool
deriving DecidableEq, Repr

structure HelpInfo where
  args : List ParsedArg
  options : List ParsedOption
deriving DecidableEq, Repr

/-- `const nonRequiredOptions = [...]` (source line 201). -/
def nonRequiredOptions : List String :=
  ["help", "skip-cache", "skip-install", "force-install", "ask-answered",
   "force", "yes", "force-yes", "quiet", "no-color", "no-insight", "silent"]

/-! ## `extractEnumValues` (source lines 319-327)

`description.match(/\[([^\]]+)\]/)`: the leftmost occurrence of `[`, a
non-empty run of non-`]` characters (the greedy `[^\]]+` stops exactly at the
first `]`, and no shorter repetition can be followed by `]`), then `]`.  On a
failed attempt the JS engine retries at the next position. -/

def firstBracketMatch : List Char → Option (List Char)
  | [] => none
  | c :: t =>
    if c = '[' then
      let run := t.takeWhile (fun x => x ≠ ']')
      if run ≠ [] ∧ run.length < t.length then some run else firstBracketMatch t
    else firstBracketMatch t

def extractEnumValues (description : String) : Option (List String) :=
  (firstBracketMatch description.data).map (fun r => (splitOnCh '|' r).map String.mk)

/-! ## `isOptionRequired` (source lines 330-372) -/

def likelyRequiredOptionPatterns : List String :=
  ["username", "name", "email", "author", "css", "style", "client", "graphql"]

/-- JS `\b(enter|specify|provide)\b` with `/i`: one of the words occurs
case-insensitively with a non-word character (or the string edge) on both
sides.  `prevIsWord` tracks whether the previous character is a word
character. -/
def hasPromptVerbAux (prevIsWord : Bool) : List Char → Bool
  | [] => false
  | c :: t =>
    (!prevIsWord &&
      (["enter".data, "specify".data, "provide".data].any (fun w =>
        ciIsPrefix w (c :: t) &&
          match (c :: t).drop w.length with
          | [] => true
          | d :: _ => !isWordCh d)))
    || hasPromptVerbAux (isWordCh c) t

def hasPromptVerb (s : String) : Bool := hasPromptVerbAux false s.data

def isOptionRequired (o : ParsedOption) : Bool :=
  if o.required = some true then true
  else if o.default.isSome then false
  else if strContains o.description "Default:" then false
  else if o.name ∈ nonRequiredOptions then false
  else if likelyRequiredOptionPatterns.any
      (fun pat => strContains (String.mk (o.name.data.map Char.toLower)) pat) then true
  else if strContains o.description "?" || hasPromptVerb o.description then true
  else if (extractEnumValues o.description).elim false (fun l => l.length > 0) then true
  else false

/-! ## `parseGeneratorHelp` (source lines 204-316) -/

/-- One preliminary argument entry from a usage-line placeholder match:
`match.replace(/[\[\]<>]/g, '')` on the full match text `[<name>]`. -/
def argFromUsage (full : List Char) : ParsedArg :=
  { name := String.mk (full.filter (fun c => c ∉ ['[', ']', '<', '>'])),
    type := "String", required := false, description := "" }

/-- The preliminary argument list seeded from the usage line. -/
def usageArgs (h : List Char) : List ParsedArg :=
  match searchFrom usagePat h with
  | none => []
  | some m =>
    (allMatches usageArgPat (jsTrim ((m.2.2 2).getD []))).map
      (fun mm => argFromUsage (fullMatchText mm))

/-- One argument record from an Arguments-section entry match:
destructuring defaults `type = 'String'`, `required = 'false'`, then
`type || 'String'` and `required === 'true'`, with the description trimmed. -/
def buildArg (m : List Char × Nat × Caps) : ParsedArg :=
  let cs := m.2.2
  let ty := (cs 3).map String.mk |>.getD "String"
  { name := String.mk ((cs 1).getD []),
    type := if ty = "" then "String" else ty,
    required := ((cs 4).map String.mk |>.getD "false") = "true",
    description := String.mk (jsTrim ((cs 2).getD [])) }

/-- `findIndex` by name, then update-in-place or push (source lines 245-262). -/
def upsertArg : List ParsedArg → ParsedArg → List ParsedArg
  | [], n => [n]
  | a :: t, n => if a.name = n.name then n :: t else a :: upsertArg t n

def parsedArgs (h : List Char) : List ParsedArg :=
  match searchFrom argsSecPat h with
  | none => usageArgs h
  | some m =>
    ((allMatches argEntryPat ((m.2.2 1).getD [])).map buildArg).foldl upsertArg (usageArgs h)

/-- One option record from an Options-section entry match (source lines
274-295): the required heuristic is computed on the untrimmed description,
deny-listed names are forced optional, and the stored description is trimmed. -/
def buildOption (m : List Char × Nat × Caps) : ParsedOption :=
  let cs := m.2.2
  let name := String.mk ((cs 2).getD [])
  let desc := String.mk ((cs 3).getD [])
  let isReq :=
    strContains desc "(Required)" || strContains desc "[Required]" ||
    strContains desc "required" || !strContains desc "Optional"
  { name := name,
    flag := String.mk ((cs 1).getD []),
    description := String.mk (jsTrim desc.data),
    default := (cs 4).map String.mk,
    required := some (if name ∈ nonRequiredOptions then false else isReq) }

def parsedOptionsBase (h : List Char) : List ParsedOption :=
  match searchFrom optionsSecPat h with
  | none => []
  | some m => (allMatches optionEntryPat ((m.2.2 1).getD [])).map buildOption

/-- The Questions/Prompts/Inputs re-evaluation pass (source lines 301-313). -/
def promptAdjust (sect : String) (o : ParsedOption) : ParsedOption :=
  if o.name ∈ nonRequiredOptions then { o with required := some false }
  else if strContains sect o.name then { o with required := some true }
  else o

def parsedOptions (h : List Char) : List ParsedOption :=
  match searchFrom promptSecPat h with
  | none => parsedOptionsBase h
  | some m =>
    (parsedOptionsBase h).map (promptAdjust (String.mk ((m.2.2 1).getD [])))

def parseGeneratorHelp (helpOutput : String) : HelpInfo :=
  { args := parsedArgs helpOutput.data,
    options := parsedOptions helpOutput.data }

/-! ## JS values and object lookups (for option mappings) -/

inductive JSValue where
  | vBool : Bool → JSValue
  | vStr : String → JSValue
  | vNum : Int → JSValue
  | vNull : JSValue
  | vUndefined : JSValue
deriving DecidableEq, Repr

/-- JS truthiness of the values a tool caller can supply. -/
def truthy : JSValue → Bool
  | .vBool b => b
  | .vStr s => s ≠ ""
  | .vNum n => n ≠ 0
  | .vNull => false
  | .vUndefined => false

/-- Property lookup on an object modelled as an association list with unique
keys (the shape `zod`'s `z.record` delivers); a missing key is `undefined`. -/
def propLookup : List (String × JSValue) → String → Option JSValue
  | [], _ => none
  | p :: t, k => if p.1 = k then some p.2 else propLookup t k

/-- JS `!obj[k]` is truthiness of the looked-up value (absent ⇒ `undefined`). -/
def propTruthy (o : List (String × JSValue)) (k : String) : Bool :=
  (propLookup o k).elim false truthy

/-! ## `checkRequiredArguments` (source lines 375-435) -/

structure MissingArg where
  name : String
  description : String
deriving DecidableEq, Repr

structure MissingOption where
  name : String
  description : String
  enumValues : Option (List String)
deriving DecidableEq, Repr

structure CheckResult where
  missingRequired : List MissingArg
  missingOptions : List MissingOption
  defaultOptions : List (String × JSValue)
deriving DecidableEq, Repr

/-- The camel-case transform: every occurrence of `-` followed by a lowercase
letter is replaced by the upper-cased letter (JS global replace of the
pattern "dash, capture one of a-z"). -/
def camelChars : List Char → List Char
  | [] => []
  | '-' :: c :: t =>
    if 'a' ≤ c && c ≤ 'z' then c.toUpper :: camelChars t
    else '-' :: camelChars (c :: t)
  | c :: t => c :: camelChars t

def camelCaseName (s : String) : String := String.mk (camelChars s.data)

/-- The `helpInfo.args.forEach((arg, index) => …)` loop. -/
def missingArgsAux (providedCount : Nat) : List ParsedArg → Nat → List MissingArg
  | [], _ => []
  | a :: t, idx =>
    (if a.required && decide (providedCount ≤ idx) then [⟨a.name, a.description⟩] else [])
      ++ missingArgsAux providedCount t (idx + 1)

/-- The `helpInfo.options.forEach(option => …)` loop. -/
def missingOptionsAux (po : List (String × JSValue)) : List ParsedOption → List MissingOption
  | [] => []
  | o :: t =>
    let kebabName := o.name
    let camelName := camelCaseName kebabName
    let isRequired := isOptionRequired o
    let enumValues := extractEnumValues o.description
    let here :=
      if enumValues.elim false (fun l => l.length > 0)
          && !propTruthy po kebabName && !propTruthy po camelName then
        (if isRequired then [⟨kebabName, o.description, enumValues⟩] else [])
      else if isRequired && !propTruthy po kebabName && !propTruthy po camelName then
        [⟨kebabName, o.description, none⟩]
      else []
    here ++ missingOptionsAux po t

def checkRequiredArguments (helpInfo : HelpInfo) (providedArgs : List String)
    (providedOptions : List (String × JSValue)) : CheckResult :=
  { missingRequired := missingArgsAux providedArgs.length helpInfo.args 0,
    missingOptions := missingOptionsAux providedOptions helpInfo.options,
    defaultOptions := [] }

/-! ## `cleanOutput` (source lines 803-812)

Each of the six chained global replaces is embedded as one full left-to-right
pass.  The three escape-sequence removals share a scanner parametrised by the
tail of the pattern after the initial `\u001b`; greedy `\d+` runs are maximal
(the character after a maximal digit run is not a digit, so no shorter
repetition can satisfy the rest of the pattern). -/

def escCh : Char := '\x1b'

/-- Rest of `\[\d+m` after the escape character: the greedy digit run is
maximal (the character after it is not a digit, so no shorter repetition can
be followed by `m`). -/
def colorTail : List Char → Option (List Char)
  | [] => none
  | c :: u =>
    if c = '[' then
      if u.takeWhile isDigitCh = [] then none
      else
        match u.drop (u.takeWhile isDigitCh).length with
        | m :: v => if m = 'm' then some v else none
        | [] => none
    else none

/-- Rest of `\[\?25[hl]` after the escape character. -/
def cursorVisTail : List Char → Option (List Char)
  | a :: b :: c :: d :: e :: v =>
    if a = '[' && b = '?' && c = '2' && d = '5' && (e = 'h' || e = 'l') then some v else none
  | _ => none

/-- Rest of `\[\d+[A-Z]` after the escape character. -/
def cursorMoveTail : List Char → Option (List Char)
  | [] => none
  | c :: u =>
    if c = '[' then
      if u.takeWhile isDigitCh = [] then none
      else
        match u.drop (u.takeWhile isDigitCh).length with
        | m :: v => if 'A' ≤ m && m ≤ 'Z' then some v else none
        | [] => none
    else none

/-- One global-replace-by-empty pass for a pattern starting with `\u001b`.
The fuel is the input length; every step consumes at least one character. -/
def stripEscAux (tailFn : List Char → Option (List Char)) : Nat → List Char → List Char
  | 0, s => s
  | _ + 1, [] => []
  | fuel + 1, c :: t =>
    if c = escCh then
      match tailFn t with
      | some rest => stripEscAux tailFn fuel rest
      | none => c :: stripEscAux tailFn fuel t
    else c :: stripEscAux tailFn fuel t

def stripEsc (tailFn : List Char → Option (List Char)) (s : List Char) : List Char :=
  stripEscAux tailFn s.length s

/-- Global replace of `\r\n` by `\n` (a lone `\r` is left for the next pass). -/
def fixCRLF : List Char → List Char
  | [] => []
  | '\r' :: '\n' :: u => '\n' :: fixCRLF u
  | c :: t => c :: fixCRLF t

/-- Global replace of `\r` by `\n`. -/
def fixCR (l : List Char) : List Char := l.map (fun c => if c = '\r' then '\n' else c)

/-- Global replace of a greedy newline run of length at least three by two
newlines; the greedy match swallows the whole run, so scanning resumes after
it. -/
def collapseNlAux : Nat → List Char → List Char
  | 0, s => s
  | _ + 1, [] => []
  | fuel + 1, c :: t =>
    if c = '\n' then
      match t with
      | '\n' :: '\n' :: u => '\n' :: '\n' :: collapseNlAux fuel (u.dropWhile (fun d => d = '\n'))
      | _ => c :: collapseNlAux fuel t
    else c :: collapseNlAux fuel t

def collapseNl (s : List Char) : List Char := collapseNlAux s.length s

def cleanOutput (output : String) : String :=
  String.mk (collapseNl (fixCR (fixCRLF
    (stripEsc cursorMoveTail (stripEsc cursorVisTail (stripEsc colorTail output.data))))))

/-! ## Post-spawn outcome classification of `runYeomanGenerator`
(source lines 654-672 for the exit flag and 687-764 for the precedence). -/

inductive RunOutcome where
  | notFound         -- "Did not find a suitable generator" in the output
  | stillInteractive -- interactive prompt markers detected
  | invalidVersion   -- "Invalid version format" in the output
  | genericFailure   -- non-zero (or null) exit, none of the markers present
  | success
deriving DecidableEq, Repr

/-- The `close` handler resolves `success: code === 0`. -/
def exitSuccess (code : Option Int) : Bool := code = some 0

/-- The prompt-marker test: `output.includes('?') && (match1 || match2)`. -/
def promptMarkers (output : String) : Bool :=
  strContains output "?" &&
    ((searchFrom questionPromptPat output.data).isSome ||
      (searchFrom selectPromptPat output.data).isSome)

def classifyRunOutput (code : Option Int) (output : String) : RunOutcome :=
  if strContains output "Did not find a suitable generator" then .notFound
  else if promptMarkers output then .stillInteractive
  else if strContains output "Invalid version format" then .invalidVersion
  else if !exitSuccess code then .genericFailure
  else .success

/-- The `success` field of the structured result each branch returns. -/
def outcomeSuccess : RunOutcome → Bool
  | .success => true
  | _ => false

/-! ## The `yeoman_generate` handler (source lines 980-1018) -/

/-- JS object update: assign to an existing key in place, append otherwise
(the semantics of spreading `options` and then writing the literal keys). -/
def objSet (l : List (String × JSValue)) (k : String) (v : JSValue) : List (String × JSValue) :=
  if l.any (fun p => p.1 = k) then
    l.map (fun p => if p.1 = k then (k, v) else p)
  else l ++ [(k, v)]

def forcedTrueKeys : List String :=
  ["skip-install", "skip-cache", "force-yes", "yes", "no-insight", "no-color", "quiet"]

/-- `const mergedOptions = { ...options, 'skip-install': true, … }`. -/
def mergedOptions (options : List (String × JSValue)) : List (String × JSValue) :=
  forcedTrueKeys.foldl (fun acc k => objSet acc k (.vBool true)) options

/-- Rendering of `${value}` for the values a caller can supply. -/
def jsValueText : JSValue → String
  | .vBool b => if b then "true" else "false"
  | .vStr s => s
  | .vNum n => toString n
  | .vNull => "null"
  | .vUndefined => "undefined"

/-- The option-to-flag rendering loop of `runYeomanGenerator` (source lines
586-592): `true` becomes a bare `--key`; `false`, `null` and `undefined` are
omitted; any other value becomes `--key=value`. -/
def renderOptionArgs (options : List (String × JSValue)) : List String :=
  options.flatMap (fun p =>
    if p.2 = .vBool true then ["--" ++ p.1]
    else if p.2 ≠ .vBool false && p.2 ≠ .vUndefined && p.2 ≠ .vNull then
      ["--" ++ p.1 ++ "=" ++ jsValueText p.2]
    else [])

/-- Positional argument assembly of the `yeoman_generate` handler (source
lines 1004-1013): start from the caller extras, `unshift(version)` if
`version` is truthy, then `unshift(appName)` if `appName` is truthy. -/
def buildPositionalArgs (appName version : String) (args : List String) : List String :=
  let l := args
  let l := if version ≠ "" then version :: l else l
  if appName ≠ "" then appName :: l else l

/-! ## Claim C10 -/

/-- C10: for every `HelpInfo`, provided-arguments list and provided-options
mapping, the `defaultOptions` field of the requirement-check result is the
empty mapping — no code path of `checkRequiredArguments` populates it. -/
theorem c10_defaultOptions_empty (hi : HelpInfo) (pargs : List String)
    (po : List (String × JSValue)) :
    (checkRequiredArguments hi pargs po).defaultOptions = [] := rfl

/-! ## Claim C4 -/

/-- C4 counterexample: with an empty `appName` (a value `z.string()` accepts,
and which JS treats as falsy), the positional sequence is not
`[appName, version] ++ args`: the empty identity value is dropped. -/
theorem c4_counterexample :
    buildPositionalArgs "" "1.0.0" ["x"] ≠ "" :: "1.0.0" :: ["x"] := by decide

/-- C4 (amended): when `appName` and `version` are non-empty (truthy), the
positional-argument sequence passed to the generator run is exactly
`[appName, version]` followed by the caller extras in order. -/
theorem c4_amended (a v : String) (xs : List String) (ha : a ≠ "") (hv : v ≠ "") :
    buildPositionalArgs a v xs = a :: v :: xs := by
  simp [buildPositionalArgs, ha, hv]

theorem c4_witness :
    buildPositionalArgs "app" "1.0.0" ["x"] = "app" :: "1.0.0" :: ["x"] :=
  c4_amended "app" "1.0.0" ["x"] (by decide) (by decide)

/-! ## Claim C1 -/

def c1Help : String := "Options:\n --foo # Pick one Default: bar\n"

def c1Option : ParsedOption :=
  { name := "foo", flag := "", description := "Pick one",
    default := some "bar", required := some true }

/-- C1 counterexample: the option parsed from `c1Help` carries a captured
default value, yet `isOptionRequired` classifies it required — the parse-time
heuristic already marked it required (its description lacks "Optional") and
that mark short-circuits every default check. -/
theorem c1_counterexample :
    c1Option ∈ (parseGeneratorHelp c1Help).options
    ∧ c1Option.default.isSome = true
    ∧ isOptionRequired c1Option = true := by decide

/-- C1 (amended): an option whose parsed `required` flag is not already
`true` and which carries a default value (a captured default or a "Default:"
marker in its description) is never classified required by
`isOptionRequired`, for any description content. -/
theorem c1_amended (o : ParsedOption) (hreq : o.required ≠ some true)
    (hdef : o.default.isSome = true ∨ strContains o.description "Default:" = true) :
    isOptionRequired o = false := by
  unfold isOptionRequired
  rw [if_neg hreq]
  rcases hdef with h | h
  · rw [if_pos h]
  · by_cases hd : o.default.isSome = true
    · rw [if_pos hd]
    · rw [if_neg hd, if_pos h]

theorem c1_witness :
    isOptionRequired ⟨"extra", "", "Default: 3", none, some false⟩ = false :=
  c1_amended ⟨"extra", "", "Default: 3", none, some false⟩ (by decide) (Or.inr (by decide))

/-! ## Claim C2 -/

/-- C2: the post-exit outcome classification follows the fixed precedence of
the source: a "Did not find a suitable generator" marker yields the not-found
failure (with `success: false`) for every exit code, including 0; only in its
absence are the interactive-prompt markers checked, then the "Invalid version
format" marker, then a non-zero (or null) exit yields the generic failure,
and otherwise the run is classified successful. -/
theorem c2_classification_precedence (code : Option Int) (output : String) :
    (strContains output "Did not find a suitable generator" = true →
      classifyRunOutput code output = .notFound
        ∧ outcomeSuccess (classifyRunOutput code output) = false)
    ∧ (strContains output "Did not find a suitable generator" = false →
        promptMarkers output = true →
        classifyRunOutput code output = .stillInteractive)
    ∧ (strContains output "Did not find a suitable generator" = false →
        promptMarkers output = false →
        strContains output "Invalid version format" = true →
        classifyRunOutput code output = .invalidVersion)
    ∧ (strContains output "Did not find a suitable generator" = false →
        promptMarkers output = false →
        strContains output "Invalid version format" = false →
        exitSuccess code = false →
        classifyRunOutput code output = .genericFailure)
    ∧ (strContains output "Did not find a suitable generator" = false →
        promptMarkers output = false →
        strContains output "Invalid version format" = false →
        exitSuccess code = true →
        classifyRunOutput code output = .success) := by
  refine ⟨fun h1 => ?_, fun h1 h2 => ?_, fun h1 h2 h3 => ?_,
    fun h1 h2 h3 h4 => ?_, fun h1 h2 h3 h4 => ?_⟩ <;>
    simp_all [classifyRunOutput, outcomeSuccess]

theorem c2_witness :
    classifyRunOutput (some 0) "Did not find a suitable generator" = .notFound
    ∧ outcomeSuccess (classifyRunOutput (some 0) "Did not find a suitable generator") = false :=
  (c2_classification_precedence (some 0) "Did not find a suitable generator").1 (by decide)

/-! ## Claim C5 -/

/-- C5: the help parser is total by construction (`parseGeneratorHelp` is a
total function on all strings), and when the usage line and Arguments section
are absent (their regexes have no match) the argument collection is empty,
and when the Options section is absent the option collection is empty —
empty collections, never an error. -/
theorem c5_parser_absent_sections (help : String) :
    (searchFrom usagePat help.data = none →
      searchFrom argsSecPat help.data = none →
      (parseGeneratorHelp help).args = [])
    ∧ (searchFrom optionsSecPat help.data = none →
        (parseGeneratorHelp help).options = []) := by
  constructor
  · intro h1 h2
    simp [parseGeneratorHelp, parsedArgs, usageArgs, h1, h2]
  · intro h
    have hbase : parsedOptionsBase help.data = [] := by
      simp [parsedOptionsBase, h]
    simp only [parseGeneratorHelp, parsedOptions]
    cases searchFrom promptSecPat help.data <;> simp [hbase]

theorem c5_witness :
    (parseGeneratorHelp "").args = [] ∧ (parseGeneratorHelp "").options = [] :=
  ⟨(c5_parser_absent_sections "").1 rfl rfl, (c5_parser_absent_sections "").2 rfl⟩

/-! ## Claim C8 -/

theorem buildOption_name_mem_denylist (m : List Char × Nat × Caps)
    (h : (buildOption m).name ∈ nonRequiredOptions) :
    (buildOption m).required = some false := by
  simp only [buildOption] at h ⊢
  rw [if_pos h]

theorem promptAdjust_name (sect : String) (o : ParsedOption) :
    (promptAdjust sect o).name = o.name := by
  unfold promptAdjust
  split <;> try rfl
  split <;> rfl

theorem promptAdjust_mem_denylist (sect : String) (o : ParsedOption)
    (h : (promptAdjust sect o).name ∈ nonRequiredOptions) :
    (promptAdjust sect o).required = some false := by
  rw [promptAdjust_name] at h
  simp [promptAdjust, h]

theorem parsedOptions_denylist_required_false (h : List Char) (o : ParsedOption)
    (ho : o ∈ parsedOptions h) (hd : o.name ∈ nonRequiredOptions) :
    o.required = some false := by
  have hbase : ∀ o' ∈ parsedOptionsBase h, o'.name ∈ nonRequiredOptions →
      o'.required = some false := by
    intro o' ho' hd'
    unfold parsedOptionsBase at ho'
    rcases hm : searchFrom optionsSecPat h with _ | m
    · rw [hm] at ho'; simp at ho'
    · rw [hm] at ho'
      rcases List.mem_map.mp ho' with ⟨mm, _, rfl⟩
      exact buildOption_name_mem_denylist mm hd'
  unfold parsedOptions at ho
  rcases hp : searchFrom promptSecPat h with _ | m
  · rw [hp] at ho
    exact hbase o ho hd
  · rw [hp] at ho
    rcases List.mem_map.mp ho with ⟨o', _, rfl⟩
    exact promptAdjust_mem_denylist _ o' hd

/-- C8: for every help text, every parsed option whose name is on the fixed
deny-list of non-required flags is classified not-required by
`isOptionRequired`, regardless of its description content, its default value
and any Questions/Prompts/Inputs section: parsing forces `required := false`
for deny-listed names, and every `isOptionRequired` branch reachable with a
non-`true` `required` flag up to the deny-list test returns `false`. -/
theorem c8_denylist_never_required (help : String) (o : ParsedOption)
    (ho : o ∈ (parseGeneratorHelp help).options)
    (hd : o.name ∈ nonRequiredOptions) :
    isOptionRequired o = false := by
  have hreq : o.required = some false :=
    parsedOptions_denylist_required_false help.data o ho hd
  unfold isOptionRequired
  rw [if_neg (by simp [hreq])]
  by_cases h1 : o.default.isSome = true
  · rw [if_pos h1]
  · rw [if_neg h1]
    by_cases h2 : strContains o.description "Default:" = true
    · rw [if_pos h2]
    · rw [if_neg h2, if_pos hd]

theorem c8_witness :
    isOptionRequired ⟨"help", "h", "Show help", none, some false⟩ = false :=
  c8_denylist_never_required "Options:\n -h, --help # Show help\n"
    ⟨"help", "h", "Show help", none, some false⟩ (by decide) (by decide)


/-! ## Claim C9 -/

theorem propLookup_map_set (k k' : String) (v : JSValue) (h : k ≠ k') :
    ∀ t : List (String × JSValue),
      propLookup (t.map (fun p => if p.1 = k' then (k', v) else p)) k = propLookup t k := by
  intro t
  induction t with
  | nil => rfl
  | cons p t ih =>
    by_cases hp : p.1 = k'
    · simp only [List.map_cons, if_pos hp, propLookup]
      rw [if_neg (fun hk : k' = k => h hk.symm),
        if_neg (by rw [hp]; exact fun hk : k' = k => h hk.symm)]
      exact ih
    · simp only [List.map_cons, if_neg hp, propLookup]
      by_cases hk : p.1 = k
      · simp [hk]
      · simp [hk, ih]

theorem propLookup_map_set_self (k : String) (v : JSValue) :
    ∀ t : List (String × JSValue), t.any (fun p => p.1 = k) = true →
      propLookup (t.map (fun p => if p.1 = k then (k, v) else p)) k = some v := by
  intro t
  induction t with
  | nil => intro h; simp at h
  | cons p t ih =>
    intro h
    by_cases hp : p.1 = k
    · simp [List.map_cons, if_pos hp, propLookup]
    · have ht : t.any (fun p => p.1 = k) = true := by
        simpa [List.any_cons, hp] using h
      simp only [List.map_cons, if_neg hp, propLookup]
      exact ih ht

theorem propLookup_append_single (k k' : String) (v : JSValue) (h : k ≠ k') :
    ∀ t : List (String × JSValue), propLookup (t ++ [(k', v)]) k = propLookup t k := by
  intro t
  induction t with
  | nil =>
    simp only [List.nil_append, propLookup]
    rw [if_neg (fun hk : k' = k => h hk.symm)]
  | cons p t ih =>
    simp only [List.cons_append, propLookup]
    by_cases hk : p.1 = k
    · simp [hk]
    · simp [hk, ih]

theorem propLookup_append_single_self (k : String) (v : JSValue) :
    ∀ t : List (String × JSValue), t.any (fun p => p.1 = k) = false →
      propLookup (t ++ [(k, v)]) k = some v := by
  intro t
  induction t with
  | nil => intro _; simp [propLookup]
  | cons p t ih =>
    intro h
    simp only [List.any_cons, Bool.or_eq_false_iff] at h
    simp only [List.cons_append, propLookup]
    rw [if_neg (by simpa using h.1)]
    exact ih h.2

theorem propLookup_objSet_self (l : List (String × JSValue)) (k : String) (v : JSValue) :
    propLookup (objSet l k v) k = some v := by
  unfold objSet
  split
  · next h => exact propLookup_map_set_self k v l h
  · next h => exact propLookup_append_single_self k v l (Bool.eq_false_iff.mpr h)

theorem propLookup_objSet_other (l : List (String × JSValue)) (k k' : String) (v : JSValue)
    (h : k ≠ k') : propLookup (objSet l k' v) k = propLookup l k := by
  unfold objSet
  split
  · exact propLookup_map_set k k' v h l
  · exact propLookup_append_single k k' v h l

theorem mem_objSet_self (l : List (String × JSValue)) (k : String) (v : JSValue) :
    (k, v) ∈ objSet l k v := by
  unfold objSet
  split
  · next h =>
    rcases List.any_eq_true.mp h with ⟨p, hp, hpk⟩
    have hmem : (if p.1 = k then (k, v) else p)
        ∈ l.map (fun q => if q.1 = k then (k, v) else q) :=
      List.mem_map_of_mem _ hp
    rwa [if_pos (by simpa using hpk)] at hmem
  · exact List.mem_append_right _ (by simp)

theorem mem_objSet_of_mem (l : List (String × JSValue)) (k : String) (v : JSValue)
    (p : String × JSValue) (hp : p ∈ l) (h : p.1 ≠ k) : p ∈ objSet l k v := by
  unfold objSet
  split
  · have hmem : (if p.1 = k then (k, v) else p)
        ∈ l.map (fun q => if q.1 = k then (k, v) else q) :=
      List.mem_map_of_mem _ hp
    rwa [if_neg h] at hmem
  · exact List.mem_append_left _ hp

theorem mem_objSet_true_preserved (l : List (String × JSValue)) (k k' : String)
    (h : (k, JSValue.vBool true) ∈ l) :
    (k, JSValue.vBool true) ∈ objSet l k' (.vBool true) := by
  by_cases hk : k = k'
  · subst hk; exact mem_objSet_self l k (.vBool true)
  · exact mem_objSet_of_mem l k' (.vBool true) (k, .vBool true) h (by simpa using hk)

theorem propLookup_foldl_objSet_notmem (keys : List String) :
    ∀ (l : List (String × JSValue)) (k : String), k ∉ keys →
      propLookup (keys.foldl (fun acc k' => objSet acc k' (.vBool true)) l) k
        = propLookup l k := by
  induction keys with
  | nil => intro l k _; rfl
  | cons k0 keys ih =>
    intro l k hk
    simp only [List.foldl_cons]
    rw [ih _ k (fun hm => hk (List.mem_cons_of_mem _ hm)),
      propLookup_objSet_other _ _ _ _ (fun he => hk (by rw [he]; exact List.mem_cons_self _ _))]

theorem propLookup_foldl_objSet_mem (keys : List String) :
    ∀ (l : List (String × JSValue)) (k : String), k ∈ keys →
      propLookup (keys.foldl (fun acc k' => objSet acc k' (.vBool true)) l) k
        = some (.vBool true) := by
  induction keys with
  | nil => intro l k hk; simp at hk
  | cons k0 keys ih =>
    intro l k hk
    simp only [List.foldl_cons]
    by_cases hmem : k ∈ keys
    · exact ih _ k hmem
    · have hk0 : k = k0 := by
        rcases List.mem_cons.mp hk with h | h
        · exact h
        · exact absurd h hmem
      subst hk0
      rw [propLookup_foldl_objSet_notmem keys _ k hmem, propLookup_objSet_self]

theorem mem_foldl_objSet_true (keys : List String) :
    ∀ (l : List (String × JSValue)) (k : String),
      (k, JSValue.vBool true) ∈ l →
      (k, JSValue.vBool true) ∈ keys.foldl (fun acc k' => objSet acc k' (.vBool true)) l := by
  induction keys with
  | nil => intro l k h; exact h
  | cons k0 keys ih =>
    intro l k h
    simp only [List.foldl_cons]
    exact ih _ k (mem_objSet_true_preserved l k k0 h)

theorem mem_foldl_objSet_of_mem_keys (keys : List String) :
    ∀ (l : List (String × JSValue)) (k : String), k ∈ keys →
      (k, JSValue.vBool true) ∈ keys.foldl (fun acc k' => objSet acc k' (.vBool true)) l := by
  induction keys with
  | nil => intro l k hk; simp at hk
  | cons k0 keys ih =>
    intro l k hk
    simp only [List.foldl_cons]
    rcases List.mem_cons.mp hk with h | h
    · subst h
      exact mem_foldl_objSet_true keys _ k (mem_objSet_self l k (.vBool true))
    · exact ih _ k h

theorem renderOptionArgs_mem (l : List (String × JSValue)) (k : String)
    (h : (k, JSValue.vBool true) ∈ l) : ("--" ++ k) ∈ renderOptionArgs l := by
  unfold renderOptionArgs
  refine List.mem_flatMap.mpr ⟨(k, JSValue.vBool true), h, ?_⟩
  simp

/-- C9: the option mapping actually used by the `yeoman_generate` handler
maps each of the seven forced keys (`skip-install`, `skip-cache`,
`force-yes`, `yes`, `no-insight`, `no-color`, `quiet`) to `true`, overriding
any caller-supplied value; each such key is rendered as a bare `--key` flag;
and every other caller-supplied entry is looked up unchanged. -/
theorem c9_merged_options (opts : List (String × JSValue)) (k : String) :
    (k ∈ forcedTrueKeys →
      propLookup (mergedOptions opts) k = some (.vBool true)
        ∧ ("--" ++ k) ∈ renderOptionArgs (mergedOptions opts))
    ∧ (k ∉ forcedTrueKeys →
        propLookup (mergedOptions opts) k = propLookup opts k) := by
  refine ⟨fun hk => ⟨?_, ?_⟩, fun hk => ?_⟩
  · exact propLookup_foldl_objSet_mem forcedTrueKeys opts k hk
  · exact renderOptionArgs_mem _ k (mem_foldl_objSet_of_mem_keys forcedTrueKeys opts k hk)
  · exact propLookup_foldl_objSet_notmem forcedTrueKeys opts k hk

theorem c9_witness :
    propLookup (mergedOptions [("quiet", .vBool false), ("appTitle", .vStr "X")]) "quiet"
      = some (.vBool true)
    ∧ "--quiet" ∈ renderOptionArgs (mergedOptions [("quiet", .vBool false), ("appTitle", .vStr "X")])
    ∧ propLookup (mergedOptions [("quiet", .vBool false), ("appTitle", .vStr "X")]) "appTitle"
      = propLookup [("quiet", .vBool false), ("appTitle", .vStr "X")] "appTitle" :=
  ⟨((c9_merged_options [("quiet", .vBool false), ("appTitle", .vStr "X")] "quiet").1
      (by decide)).1,
   ((c9_merged_options [("quiet", .vBool false), ("appTitle", .vStr "X")] "quiet").1
      (by decide)).2,
   (c9_merged_options [("quiet", .vBool false), ("appTitle", .vStr "X")] "appTitle").2
      (by decide)⟩

end McpYeoman

namespace McpYeoman

/-! ## Claim C3 -/

theorem extractEnumValues_ne_nil (d : String) (l : List String)
    (h : extractEnumValues d = some l) : l ≠ [] := by
  unfold extractEnumValues at h
  rcases hm : firstBracketMatch d.data with _ | r
  · rw [hm] at h; simp at h
  · rw [hm] at h
    simp at h
    subst h
    simpa using splitOnCh_ne_nil '|' r

/-- The amended argument clause, stated declaratively: an argument is
reported exactly when it is required and its positional index is at least
the number of supplied positional arguments, in help order. -/
def missingArgsSpec (args : List ParsedArg) (providedCount : Nat) : List MissingArg :=
  ((args.enum.filter (fun p => p.2.required && decide (providedCount ≤ p.1))).map
    (fun p => ⟨p.2.name, p.2.description⟩))

/-- The amended option clause, stated declaratively: an option is reported
exactly when it is classified required and neither its literal name nor its
camel-cased name is mapped to a truthy value; the reported record always
carries the derived enum values of its description (never a default). -/
def missingOptionsSpec (opts : List ParsedOption)
    (po : List (String × JSValue)) : List MissingOption :=
  (opts.filter (fun o => isOptionRequired o && !propTruthy po o.name
      && !propTruthy po (camelCaseName o.name))).map
    (fun o => ⟨o.name, o.description, extractEnumValues o.description⟩)

theorem missingArgsAux_spec (providedCount : Nat) :
    ∀ (args : List ParsedArg) (i : Nat),
      missingArgsAux providedCount args i =
        ((args.enumFrom i).filter (fun p => p.2.required && decide (providedCount ≤ p.1))).map
          (fun p => ⟨p.2.name, p.2.description⟩) := by
  intro args
  induction args with
  | nil => intro i; rfl
  | cons a t ih =>
    intro i
    simp only [missingArgsAux, List.enumFrom_cons, List.filter_cons]
    by_cases ha : a.required && decide (providedCount ≤ i)
    · simp only [ha, if_pos]
      simp [ih (i + 1)]
    · simp only [Bool.not_eq_true] at ha
      simp [ha, ih (i + 1)]

theorem missingOptionsAux_spec (po : List (String × JSValue)) :
    ∀ opts : List ParsedOption,
      missingOptionsAux po opts = missingOptionsSpec opts po := by
  intro opts
  induction opts with
  | nil => rfl
  | cons o t ih =>
    simp only [missingOptionsAux, missingOptionsSpec, List.filter_cons]
    cases h1 : propTruthy po o.name with
    | true => simp [h1, ih, missingOptionsSpec]
    | false =>
      cases h2 : propTruthy po (camelCaseName o.name) with
      | true => simp [h1, h2, ih, missingOptionsSpec]
      | false =>
        cases hR : isOptionRequired o with
        | false => simp [h1, h2, hR, ih, missingOptionsSpec]
        | true =>
          rcases hE : extractEnumValues o.description with _ | l
          · simp [h1, h2, hR, hE, ih, missingOptionsSpec]
          · have hl : 0 < l.length := by
              have hne := extractEnumValues_ne_nil o.description l hE
              cases l with
              | nil => exact absurd rfl hne
              | cons x xs => simp
            simp [h1, h2, hR, hE, hl, ih, missingOptionsSpec]

/-- C3 (amended): the requirement check reports an argument as missing
exactly when it is required and its positional index is not covered by the
count of supplied positional arguments, and reports an option as missing
exactly when it is classified required and neither its literal name nor the
camel-cased transform of its name is mapped to a JS-truthy value in the
provided-options mapping (absence and falsy values — `false`, `0`, `""`,
`null` — are treated alike); missing options with derived enum choices are
still reported (with their choices attached), never silently defaulted. -/
theorem c3_amended (hi : HelpInfo) (pargs : List String)
    (po : List (String × JSValue)) :
    checkRequiredArguments hi pargs po =
      ⟨missingArgsSpec hi.args pargs.length, missingOptionsSpec hi.options po, []⟩ := by
  unfold checkRequiredArguments missingArgsSpec
  rw [missingOptionsAux_spec po hi.options, missingArgsAux_spec pargs.length hi.args 0]
  rfl

/-- C3 counterexample: the option `username` is classified required and is
present in the provided-options mapping under its literal name (with value
`false`), yet it is reported missing — the source tests JS truthiness, not
absence, so the claim's "absent from the provided-options mapping" is wrong. -/
theorem c3_counterexample :
    (checkRequiredArguments ⟨[], [⟨"username", "", "", none, none⟩]⟩ []
        [("username", .vBool false)]).missingOptions
      = [⟨"username", "", none⟩]
    ∧ propLookup [("username", JSValue.vBool false)] "username" = some (.vBool false)
    ∧ isOptionRequired ⟨"username", "", "", none, none⟩ = true := by decide

end McpYeoman

namespace McpYeoman

/-! ## Claim C6 -/

/-- A bracketed, pipe-delimited list occurs in `d` right after prefix `pre`:
`d = pre ++ "[" ++ content ++ "]" ++ post` with non-empty, `]`-free content
(the regex `[^\]]+` requires at least one non-`]` character). -/
def bracketListAt (d pre content : List Char) : Prop :=
  (∃ post, d = pre ++ '[' :: (content ++ ']' :: post)) ∧ content ≠ [] ∧ ']' ∉ content

theorem firstBracketMatch_nil : firstBracketMatch [] = none := rfl

theorem firstBracketMatch_cons_lb (t : List Char) :
    firstBracketMatch ('[' :: t) =
      if t.takeWhile (fun x => x ≠ ']') ≠ []
          ∧ (t.takeWhile (fun x => x ≠ ']')).length < t.length
      then some (t.takeWhile (fun x => x ≠ ']'))
      else firstBracketMatch t := rfl

theorem firstBracketMatch_cons_ne (a : Char) (t : List Char) (ha : a ≠ '[') :
    firstBracketMatch (a :: t) = firstBracketMatch t := by
  simp [firstBracketMatch, ha]

theorem takeWhile_of_append (p : Char → Bool) (y : Char) (ys : List Char) (hy : p y = false) :
    ∀ xs : List Char, (∀ x ∈ xs, p x = true) → (xs ++ y :: ys).takeWhile p = xs := by
  intro xs
  induction xs with
  | nil => intro _; simp [List.takeWhile_cons, hy]
  | cons a t ih =>
    intro hxs
    simp only [List.cons_append, List.takeWhile_cons, hxs a (by simp)]
    simp [ih (fun x hx => hxs x (by simp [hx]))]

theorem dropWhile_head_false (p : Char → Bool) (c : Char) (cs : List Char) :
    ∀ l : List Char, l.dropWhile p = c :: cs → p c = false := by
  intro l
  induction l with
  | nil => intro h; simp [List.dropWhile] at h
  | cons a t ih =>
    intro h
    rw [List.dropWhile_cons] at h
    by_cases ha : p a
    · rw [if_pos ha] at h; exact ih h
    · rw [if_neg ha] at h
      cases h
      simpa using ha

theorem notRB_mem_takeWhile (t : List Char) :
    ']' ∉ t.takeWhile (fun x => x ≠ ']') := by
  intro h
  have := List.mem_takeWhile_imp h
  simp at this

theorem headBracket_of_cond (t : List Char)
    (h : t.takeWhile (fun x => x ≠ ']') ≠ []
      ∧ (t.takeWhile (fun x => x ≠ ']')).length < t.length) :
    ∃ post, t = t.takeWhile (fun x => x ≠ ']') ++ ']' :: post := by
  have hsplit := List.takeWhile_append_dropWhile (p := fun x => x ≠ ']') (l := t)
  rcases hd : t.dropWhile (fun x => x ≠ ']') with _ | ⟨d, ds⟩
  · exfalso
    have ht : t.takeWhile (fun x => x ≠ ']') = t := by
      conv_rhs => rw [← hsplit]
      rw [hd, List.append_nil]
    rw [ht] at h
    exact absurd h.2 (lt_irrefl _)
  · have hdfalse := dropWhile_head_false (fun x => x ≠ ']') d ds t hd
    have hdrb : d = ']' := by simpa using hdfalse
    refine ⟨ds, ?_⟩
    conv_lhs => rw [← hsplit]
    rw [hd, hdrb]

theorem cond_of_headBracket (t c post : List Char)
    (ht : t = c ++ ']' :: post) (hne : c ≠ []) (hni : ']' ∉ c) :
    t.takeWhile (fun x => x ≠ ']') ≠ []
      ∧ (t.takeWhile (fun x => x ≠ ']')).length < t.length := by
  have hrun : t.takeWhile (fun x => x ≠ ']') = c := by
    rw [ht]
    exact takeWhile_of_append _ ']' post (by simp) c
      (fun x hx => decide_eq_true (fun he : x = ']' => hni (he ▸ hx)))
  rw [hrun, ht]
  refine ⟨hne, ?_⟩
  simp

theorem bracketListAt_cons (a : Char) (t pre c : List Char) :
    bracketListAt (a :: t) pre c ↔
      (pre = [] ∧ a = '[' ∧ ∃ post, t = c ++ ']' :: post ∧ c ≠ [] ∧ ']' ∉ c)
      ∨ (∃ pre', pre = a :: pre' ∧ bracketListAt t pre' c) := by
  constructor
  · rintro ⟨⟨post, hd⟩, hne, hnotin⟩
    cases pre with
    | nil =>
      simp only [List.nil_append, List.cons.injEq] at hd
      exact Or.inl ⟨rfl, hd.1, post, hd.2, hne, hnotin⟩
    | cons x pre' =>
      simp only [List.cons_append, List.cons.injEq] at hd
      exact Or.inr ⟨pre', by rw [hd.1], ⟨⟨post, hd.2⟩, hne, hnotin⟩⟩
  · rintro (⟨rfl, rfl, post, ht, hne, hnotin⟩ | ⟨pre', rfl, ⟨⟨post, hd⟩, hne, hnotin⟩⟩)
    · exact ⟨⟨post, by simp [ht]⟩, hne, hnotin⟩
    · exact ⟨⟨post, by simp [hd]⟩, hne, hnotin⟩

theorem firstBracketMatch_none_iff :
    ∀ l, firstBracketMatch l = none ↔ ∀ pre c, ¬ bracketListAt l pre c := by
  intro l
  induction l with
  | nil =>
    rw [firstBracketMatch_nil]
    simp only [true_iff]
    rintro pre c ⟨⟨post, hd⟩, _, _⟩
    exact absurd hd.symm (by simp)
  | cons a t ih =>
    by_cases ha : a = '['
    · subst ha
      rw [firstBracketMatch_cons_lb]
      by_cases hcond : t.takeWhile (fun x => x ≠ ']') ≠ []
          ∧ (t.takeWhile (fun x => x ≠ ']')).length < t.length
      · rw [if_pos hcond]
        simp only [reduceCtorEq, false_iff]
        intro hall
        rcases headBracket_of_cond t hcond with ⟨post, ht⟩
        exact hall [] (t.takeWhile (fun x => x ≠ ']'))
          ((bracketListAt_cons _ _ _ _).mpr
            (Or.inl ⟨rfl, rfl, post, ht, hcond.1, notRB_mem_takeWhile t⟩))
      · rw [if_neg hcond, ih]
        constructor
        · intro hall pre c hb
          rcases (bracketListAt_cons _ _ _ _).mp hb with
            ⟨_, _, post, ht, hne, hni⟩ | ⟨pre', _, hb'⟩
          · exact hcond (cond_of_headBracket t c post ht hne hni)
          · exact hall pre' c hb'
        · intro hall pre c hb
          exact hall _ _ ((bracketListAt_cons _ _ _ _).mpr (Or.inr ⟨pre, rfl, hb⟩))
    · rw [firstBracketMatch_cons_ne a t ha, ih]
      constructor
      · intro hall pre c hb
        rcases (bracketListAt_cons _ _ _ _).mp hb with ⟨_, ha', _⟩ | ⟨pre', _, hb'⟩
        · exact ha ha'
        · exact hall pre' c hb'
      · intro hall pre c hb
        exact hall _ _ ((bracketListAt_cons _ _ _ _).mpr (Or.inr ⟨pre, rfl, hb⟩))

theorem firstBracketMatch_some_iff :
    ∀ l r, firstBracketMatch l = some r →
      ∃ pre, bracketListAt l pre r
        ∧ ∀ pre2 c2, bracketListAt l pre2 c2 → pre.length ≤ pre2.length := by
  intro l
  induction l with
  | nil => intro r h; rw [firstBracketMatch_nil] at h; exact absurd h (by simp)
  | cons a t ih =>
    intro r h
    by_cases ha : a = '['
    · subst ha
      rw [firstBracketMatch_cons_lb] at h
      by_cases hcond : t.takeWhile (fun x => x ≠ ']') ≠ []
          ∧ (t.takeWhile (fun x => x ≠ ']')).length < t.length
      · rw [if_pos hcond, Option.some_inj] at h
        subst h
        rcases headBracket_of_cond t hcond with ⟨post, ht⟩
        refine ⟨[], (bracketListAt_cons _ _ _ _).mpr
          (Or.inl ⟨rfl, rfl, post, ht, hcond.1, notRB_mem_takeWhile t⟩), ?_⟩
        intro pre2 c2 _
        simp
      · rw [if_neg hcond] at h
        rcases ih r h with ⟨pre', hb', hmin⟩
        refine ⟨'[' :: pre', (bracketListAt_cons _ _ _ _).mpr (Or.inr ⟨pre', rfl, hb'⟩), ?_⟩
        intro pre2 c2 hb2
        rcases (bracketListAt_cons _ _ _ _).mp hb2 with
          ⟨_, _, post, ht, hne, hni⟩ | ⟨pre2', hp, hb2'⟩
        · exact absurd (cond_of_headBracket t c2 post ht hne hni) hcond
        · rw [hp]
          simpa using hmin pre2' c2 hb2'
    · rw [firstBracketMatch_cons_ne a t ha] at h
      rcases ih r h with ⟨pre', hb', hmin⟩
      refine ⟨a :: pre', (bracketListAt_cons _ _ _ _).mpr (Or.inr ⟨pre', rfl, hb'⟩), ?_⟩
      intro pre2 c2 hb2
      rcases (bracketListAt_cons _ _ _ _).mp hb2 with ⟨_, ha', _⟩ | ⟨pre2', hp, hb2'⟩
      · exact absurd ha' ha
      · rw [hp]
        simpa using hmin pre2' c2 hb2'

/-- C6: the derived enumerated choice values of an option description are
exactly the segments (split on `|`) of the first bracketed list appearing in
the description — the leftmost occurrence of `[`, non-empty `]`-free
content, `]` — and a description containing no such bracketed list yields no
enum values (`null`). -/
theorem c6_enum_values (d : String) :
    ((extractEnumValues d).isNone = true ↔ ∀ pre content, ¬ bracketListAt d.data pre content)
    ∧ (∀ vs, extractEnumValues d = some vs →
        ∃ pre content, bracketListAt d.data pre content
          ∧ vs = (splitOnCh '|' content).map String.mk
          ∧ ∀ pre2 c2, bracketListAt d.data pre2 c2 → pre.length ≤ pre2.length) := by
  constructor
  · rw [show (extractEnumValues d).isNone = true ↔ firstBracketMatch d.data = none by
      unfold extractEnumValues
      cases firstBracketMatch d.data <;> simp]
    exact firstBracketMatch_none_iff d.data
  · intro vs h
    unfold extractEnumValues at h
    rcases hm : firstBracketMatch d.data with _ | r
    · rw [hm] at h; exact absurd h (by simp)
    · rw [hm] at h
      have hvs : vs = (splitOnCh '|' r).map String.mk := by
        rw [Option.map_some'] at h
        exact (Option.some_inj.mp h).symm
      rcases firstBracketMatch_some_iff d.data r hm with ⟨pre, hb, hmin⟩
      exact ⟨pre, r, hb, hvs, hmin⟩

theorem c6_witness :
    ∃ pre content, bracketListAt "pick [a|b] now".data pre content
      ∧ ["a", "b"] = (splitOnCh '|' content).map String.mk
      ∧ ∀ pre2 c2, bracketListAt "pick [a|b] now".data pre2 c2 → pre.length ≤ pre2.length :=
  (c6_enum_values "pick [a|b] now").2 ["a", "b"] (by decide)

end McpYeoman

namespace McpYeoman

/-! ## Claim C7 -/

theorem mem_of_mem_dropWhile (p : Char → Bool) : ∀ l : List Char, ∀ a ∈ l.dropWhile p, a ∈ l := by
  intro l
  induction l with
  | nil => intro a ha; simp at ha
  | cons c t ih =>
    intro a ha
    rw [List.dropWhile_cons] at ha
    by_cases hc : p c
    · rw [if_pos hc] at ha
      exact List.mem_cons_of_mem c (ih a ha)
    · rw [if_neg hc] at ha
      exact ha

theorem length_dropWhile_le' (p : Char → Bool) : ∀ l : List Char,
    (l.dropWhile p).length ≤ l.length := by
  intro l
  induction l with
  | nil => simp
  | cons c t ih =>
    rw [List.dropWhile_cons]
    by_cases hc : p c
    · rw [if_pos hc]
      exact Nat.le_succ_of_le ih
    · rw [if_neg hc]

theorem colorTail_suffix : ∀ t r, colorTail t = some r → ∃ n, r = t.drop n := by
  intro t r h
  cases t with
  | nil => simp [colorTail] at h
  | cons c u =>
    simp only [colorTail] at h
    by_cases hc : c = '['
    · rw [if_pos hc] at h
      by_cases hds : u.takeWhile isDigitCh = []
      · rw [if_pos hds] at h; exact absurd h (by simp)
      · rw [if_neg hds] at h
        rcases hdrop : u.drop (u.takeWhile isDigitCh).length with _ | ⟨m, v⟩
        · rw [hdrop] at h; exact absurd h (by simp)
        · rw [hdrop] at h
          dsimp only at h
          by_cases hm : m = 'm'
          · rw [if_pos hm, Option.some_inj] at h
            subst h
            refine ⟨(u.takeWhile isDigitCh).length + 2, ?_⟩
            have hv : v = u.drop ((u.takeWhile isDigitCh).length + 1) := by
              have h1 := congrArg (List.drop 1) hdrop
              simpa [List.drop_drop, Nat.add_comm] using h1.symm
            rw [List.drop_succ_cons, ← hv]
          · rw [if_neg hm] at h; exact absurd h (by simp)
    · rw [if_neg hc] at h; exact absurd h (by simp)

theorem cursorVisTail_suffix : ∀ t r, cursorVisTail t = some r → ∃ n, r = t.drop n := by
  intro t r h
  match t with
  | [] => simp [cursorVisTail] at h
  | [a] => simp [cursorVisTail] at h
  | [a, b] => simp [cursorVisTail] at h
  | [a, b, c] => simp [cursorVisTail] at h
  | [a, b, c, d] => simp [cursorVisTail] at h
  | a :: b :: c :: d :: e :: v =>
    simp only [cursorVisTail] at h
    by_cases hcond : (a = '[' && b = '?' && c = '2' && d = '5' && (e = 'h' || e = 'l')) = true
    · rw [if_pos hcond, Option.some_inj] at h
      subst h
      exact ⟨5, rfl⟩
    · rw [if_neg hcond] at h; exact absurd h (by simp)

theorem cursorMoveTail_suffix : ∀ t r, cursorMoveTail t = some r → ∃ n, r = t.drop n := by
  intro t r h
  cases t with
  | nil => simp [cursorMoveTail] at h
  | cons c u =>
    simp only [cursorMoveTail] at h
    by_cases hc : c = '['
    · rw [if_pos hc] at h
      by_cases hds : u.takeWhile isDigitCh = []
      · rw [if_pos hds] at h; exact absurd h (by simp)
      · rw [if_neg hds] at h
        rcases hdrop : u.drop (u.takeWhile isDigitCh).length with _ | ⟨m, v⟩
        · rw [hdrop] at h; exact absurd h (by simp)
        · rw [hdrop] at h
          dsimp only at h
          by_cases hm : ('A' ≤ m && m ≤ 'Z') = true
          · rw [if_pos hm, Option.some_inj] at h
            subst h
            refine ⟨(u.takeWhile isDigitCh).length + 2, ?_⟩
            have hv : v = u.drop ((u.takeWhile isDigitCh).length + 1) := by
              have h1 := congrArg (List.drop 1) hdrop
              simpa [List.drop_drop, Nat.add_comm] using h1.symm
            rw [List.drop_succ_cons, ← hv]
          · rw [if_neg hm] at h; exact absurd h (by simp)
    · rw [if_neg hc] at h; exact absurd h (by simp)

theorem stripEscAux_no_esc (tf : List Char → Option (List Char)) :
    ∀ (fuel : Nat) (s : List Char), (∀ a ∈ s, a ≠ escCh) →
      stripEscAux tf fuel s = s := by
  intro fuel
  induction fuel with
  | zero => intro s _; rfl
  | succ fuel ih =>
    intro s hs
    cases s with
    | nil => rfl
    | cons c t =>
      simp only [stripEscAux]
      rw [if_neg (hs c (by simp)), ih t (fun a ha => hs a (by simp [ha]))]

theorem stripEscAux_sub (tf : List Char → Option (List Char))
    (htf : ∀ t r, tf t = some r → ∃ n, r = t.drop n) :
    ∀ (fuel : Nat) (s : List Char), ∀ a ∈ stripEscAux tf fuel s, a ∈ s := by
  intro fuel
  induction fuel with
  | zero => intro s a ha; exact ha
  | succ fuel ih =>
    intro s a ha
    cases s with
    | nil =>
      rw [show stripEscAux tf (fuel + 1) ([] : List Char) = [] from rfl] at ha
      simp at ha
    | cons c t =>
      simp only [stripEscAux] at ha
      by_cases hc : c = escCh
      · rw [if_pos hc] at ha
        rcases hr : tf t with _ | rest
        · rw [hr] at ha
          rcases List.mem_cons.mp ha with rfl | hmem
          · simp
          · exact List.mem_cons_of_mem c (ih t a hmem)
        · rw [hr] at ha
          have hmem := ih rest a ha
          rcases htf t rest hr with ⟨n, rfl⟩
          exact List.mem_cons_of_mem c (List.drop_subset n t hmem)
      · rw [if_neg hc] at ha
        rcases List.mem_cons.mp ha with rfl | hmem
        · simp
        · exact List.mem_cons_of_mem c (ih t a hmem)

theorem fixCRLF_cons_ne (c : Char) (t : List Char)
    (h : ∀ u, ¬(c = '\r' ∧ t = '\n' :: u)) : fixCRLF (c :: t) = c :: fixCRLF t := by
  conv_lhs => rw [fixCRLF.eq_def]
  split
  · next heq => exact absurd heq (by simp)
  · next u heq =>
    simp only [List.cons.injEq] at heq
    exact absurd ⟨heq.1, heq.2⟩ (h u)
  · rename_i x1 c2 t2 hx heq
    simp only [List.cons.injEq] at heq
    rw [heq.1, heq.2]

theorem fixCRLF_sub : ∀ s : List Char, ∀ a ∈ fixCRLF s, a ∈ s ∨ a = '\n' := by
  intro s
  induction s using fixCRLF.induct with
  | case1 =>
    intro a ha
    rw [show fixCRLF [] = [] from rfl] at ha
    simp at ha
  | case2 u ih =>
    intro a ha
    rw [show fixCRLF ('\r' :: '\n' :: u) = '\n' :: fixCRLF u from rfl] at ha
    rcases List.mem_cons.mp ha with rfl | hmem
    · exact Or.inr rfl
    · rcases ih a hmem with h | h
      · exact Or.inl (by simp [h])
      · exact Or.inr h
  | case3 c t hne ih =>
    intro a ha
    rw [fixCRLF_cons_ne c t (fun u hcu => hne u hcu.1 hcu.2)] at ha
    rcases List.mem_cons.mp ha with rfl | hmem
    · exact Or.inl (by simp)
    · rcases ih a hmem with h | h
      · exact Or.inl (List.mem_cons_of_mem c h)
      · exact Or.inr h

theorem fixCRLF_no_cr_id : ∀ s : List Char, '\r' ∉ s → fixCRLF s = s := by
  intro s
  induction s using fixCRLF.induct with
  | case1 => intro _; rfl
  | case2 u ih =>
    intro h
    exact absurd (by simp : ('\r' : Char) ∈ '\r' :: '\n' :: u) h
  | case3 c t hne ih =>
    intro h
    rw [fixCRLF_cons_ne c t (fun u hcu => hne u hcu.1 hcu.2),
      ih (fun hm => h (List.mem_cons_of_mem c hm))]

theorem fixCR_no_cr (s : List Char) : '\r' ∉ fixCR s := by
  intro h
  rcases List.mem_map.mp h with ⟨b, _, hb⟩
  by_cases hbr : b = '\r' <;> simp [hbr] at hb

theorem fixCR_sub (s : List Char) : ∀ a ∈ fixCR s, a ∈ s ∨ a = '\n' := by
  intro a ha
  rcases List.mem_map.mp ha with ⟨b, hb, hab⟩
  by_cases hbr : b = '\r'
  · subst hbr
    simp at hab
    exact Or.inr hab.symm
  · rw [if_neg hbr] at hab
    exact Or.inl (hab ▸ hb)

theorem fixCR_no_cr_id : ∀ s : List Char, '\r' ∉ s → fixCR s = s := by
  intro s h
  unfold fixCR
  rw [show s.map (fun c => if c = '\r' then '\n' else c) = s.map id by
    apply List.map_congr_left
    intro a ha
    rw [if_neg (fun har : a = '\r' => h (har ▸ ha))]
    rfl]
  exact List.map_id s

end McpYeoman

namespace McpYeoman

theorem collapseNlAux_nil : ∀ fuel : Nat, collapseNlAux fuel [] = [] := by
  intro fuel; cases fuel <;> rfl

theorem collapseNlAux_succ_nl (fuel : Nat) (t : List Char)
    (h : ∀ u, t ≠ '\n' :: '\n' :: u) :
    collapseNlAux (fuel + 1) ('\n' :: t) = '\n' :: collapseNlAux fuel t := by
  conv_lhs => rw [collapseNlAux.eq_def]
  dsimp only
  rw [if_pos rfl]
  split
  · next u => exact absurd rfl (h u)
  · rfl

theorem collapseNlAux_succ_cons_ne (fuel : Nat) (c : Char) (t : List Char) (hc : c ≠ '\n') :
    collapseNlAux (fuel + 1) (c :: t) = c :: collapseNlAux fuel t := by
  conv_lhs => rw [collapseNlAux.eq_def]
  dsimp only
  rw [if_neg hc]

theorem collapseNlAux_head : ∀ (fuel : Nat) (c : Char) (t : List Char),
    ∃ z, collapseNlAux fuel (c :: t) = c :: z := by
  intro fuel c t
  cases fuel with
  | zero => exact ⟨t, rfl⟩
  | succ fuel =>
    by_cases hc : c = '\n'
    · subst hc
      by_cases ht : ∃ u, t = '\n' :: '\n' :: u
      · rcases ht with ⟨u, rfl⟩
        exact ⟨'\n' :: collapseNlAux fuel (u.dropWhile (fun d => d = '\n')), rfl⟩
      · push_neg at ht
        exact ⟨collapseNlAux fuel t, collapseNlAux_succ_nl fuel t ht⟩
    · exact ⟨collapseNlAux fuel t, collapseNlAux_succ_cons_ne fuel c t hc⟩

theorem collapseNlAux_sub : ∀ (fuel : Nat) (s : List Char),
    ∀ a ∈ collapseNlAux fuel s, a ∈ s ∨ a = '\n' := by
  intro fuel s
  induction fuel, s using collapseNlAux.induct with
  | case1 s => intro a ha; exact Or.inl ha
  | case2 n =>
    intro a ha
    rw [show collapseNlAux (n + 1) ([] : List Char) = [] from rfl] at ha
    exact absurd ha (by simp)
  | case3 fuel u ih =>
    intro a ha
    rw [show collapseNlAux (fuel + 1) ('\n' :: '\n' :: '\n' :: u)
        = '\n' :: '\n' :: collapseNlAux fuel (u.dropWhile (fun d => d = '\n')) from rfl] at ha
    rcases List.mem_cons.mp ha with rfl | ha2
    · exact Or.inr rfl
    rcases List.mem_cons.mp ha2 with rfl | ha3
    · exact Or.inr rfl
    rcases ih a ha3 with h | h
    · exact Or.inl (by
        have := mem_of_mem_dropWhile (fun d => d = '\n') u a h
        simp [this])
    · exact Or.inr h
  | case4 fuel t hne ih =>
    intro a ha
    rw [collapseNlAux_succ_nl fuel t (fun u hu => hne u hu)] at ha
    rcases List.mem_cons.mp ha with rfl | ha2
    · exact Or.inr rfl
    rcases ih a ha2 with h | h
    · exact Or.inl (List.mem_cons_of_mem _ h)
    · exact Or.inr h
  | case5 fuel c t hc ih =>
    intro a ha
    rw [collapseNlAux_succ_cons_ne fuel c t hc] at ha
    rcases List.mem_cons.mp ha with rfl | ha2
    · exact Or.inl (by simp)
    rcases ih a ha2 with h | h
    · exact Or.inl (List.mem_cons_of_mem _ h)
    · exact Or.inr h

theorem collapseNlAux_not_two_start : ∀ (fuel : Nat) (t : List Char),
    (∀ z, t ≠ '\n' :: '\n' :: z) → ∀ z, collapseNlAux fuel t ≠ '\n' :: '\n' :: z := by
  intro fuel t h z
  cases fuel with
  | zero => exact h z
  | succ fuel =>
    cases t with
    | nil => rw [show collapseNlAux (fuel + 1) [] = [] from rfl]; simp
    | cons c t' =>
      by_cases hc : c = '\n'
      · subst hc
        cases t' with
        | nil =>
          rw [collapseNlAux_succ_nl fuel [] (by simp), collapseNlAux_nil]
          simp
        | cons d t'' =>
          have hd : d ≠ '\n' := fun hdeq => h t'' (by rw [hdeq])
          rw [collapseNlAux_succ_nl fuel (d :: t'') (fun u hu => by
            simp only [List.cons.injEq] at hu
            exact hd hu.1)]
          rcases collapseNlAux_head fuel d t'' with ⟨zz, hzz⟩
          rw [hzz]
          intro hcontra
          simp only [List.cons.injEq] at hcontra
          exact hd hcontra.2.1
      · rcases collapseNlAux_head (fuel + 1) c t' with ⟨zz, hzz⟩
        rw [hzz]
        intro hcontra
        simp only [List.cons.injEq] at hcontra
        exact hc hcontra.1

theorem collapseNlAux_no_triple : ∀ (fuel : Nat) (s : List Char), s.length ≤ fuel →
    listContains ['\n', '\n', '\n'] (collapseNlAux fuel s) = false := by
  intro fuel s
  induction fuel, s using collapseNlAux.induct with
  | case1 s =>
    intro h
    have hnil : s = [] := List.eq_nil_of_length_eq_zero (Nat.le_zero.mp h)
    subst hnil
    rfl
  | case2 n => intro _; rfl
  | case3 fuel u ih =>
    intro hlen
    rw [show collapseNlAux (fuel + 1) ('\n' :: '\n' :: '\n' :: u)
        = '\n' :: '\n' :: collapseNlAux fuel (u.dropWhile (fun d => d = '\n')) from rfl]
    have hlen' : (u.dropWhile (fun d => d = '\n')).length ≤ fuel := by
      have h1 := length_dropWhile_le' (fun d => d = '\n') u
      simp only [List.length_cons] at hlen
      omega
    have hXnt := ih hlen'
    have hXhead : collapseNlAux fuel (u.dropWhile (fun d => d = '\n')) = []
        ∨ ∃ e z, collapseNlAux fuel (u.dropWhile (fun d => d = '\n')) = e :: z ∧ e ≠ '\n' := by
      rcases hu : u.dropWhile (fun d => d = '\n') with _ | ⟨e, z0⟩
      · left; exact collapseNlAux_nil fuel
      · right
        have he : e ≠ '\n' := by
          have := dropWhile_head_false (fun d => d = '\n') e z0 u hu
          simpa using this
        rcases collapseNlAux_head fuel e z0 with ⟨z, hz⟩
        exact ⟨e, z, hz, he⟩
    have hpre1 : (['\n', '\n', '\n'] : List Char).isPrefixOf
        ('\n' :: '\n' :: collapseNlAux fuel (u.dropWhile (fun d => d = '\n'))) = false := by
      rcases hXhead with hX | ⟨e, z, hX, he⟩ <;> rw [hX]
      · rfl
      · simp [List.isPrefixOf, Ne.symm he]
    have hpre2 : (['\n', '\n', '\n'] : List Char).isPrefixOf
        ('\n' :: collapseNlAux fuel (u.dropWhile (fun d => d = '\n'))) = false := by
      rcases hXhead with hX | ⟨e, z, hX, he⟩ <;> rw [hX]
      · rfl
      · simp [List.isPrefixOf, Ne.symm he]
    simp only [listContains, hpre1, hpre2, hXnt, Bool.or_self, Bool.false_or]
  | case4 fuel t hne ih =>
    intro hlen
    rw [collapseNlAux_succ_nl fuel t (fun u hu => hne u hu)]
    have hY := ih (by simp only [List.length_cons] at hlen; omega)
    have hstart := collapseNlAux_not_two_start fuel t (fun z hz => hne z hz)
    have hpre : (['\n', '\n', '\n'] : List Char).isPrefixOf
        ('\n' :: collapseNlAux fuel t) = false := by
      rcases hYc : collapseNlAux fuel t with _ | ⟨e, z⟩
      · rfl
      · by_cases he : e = '\n'
        · subst he
          rcases hz : z with _ | ⟨f, z'⟩
          · rfl
          · have hf : f ≠ '\n' := by
              intro hf
              exact hstart z' (by rw [hYc, hz, hf])
            simp [List.isPrefixOf, Ne.symm hf]
        · simp [List.isPrefixOf, Ne.symm he]
    simp only [listContains, hpre, hY, Bool.false_or]
  | case5 fuel c t hc ih =>
    intro hlen
    rw [collapseNlAux_succ_cons_ne fuel c t hc]
    have hY := ih (by simp only [List.length_cons] at hlen; omega)
    have hpre : (['\n', '\n', '\n'] : List Char).isPrefixOf (c :: collapseNlAux fuel t) = false := by
      simp [List.isPrefixOf, Ne.symm hc]
    simp only [listContains, hpre, hY, Bool.false_or]

theorem collapseNlAux_id_of_no_triple : ∀ (fuel : Nat) (s : List Char), s.length ≤ fuel →
    listContains ['\n', '\n', '\n'] s = false → collapseNlAux fuel s = s := by
  intro fuel s
  induction fuel, s using collapseNlAux.induct with
  | case1 s => intro _ _; rfl
  | case2 n => intro _ _; rfl
  | case3 fuel u ih =>
    intro hlen hnt
    exfalso
    simp [listContains, List.isPrefixOf] at hnt
  | case4 fuel t hne ih =>
    intro hlen hnt
    rw [collapseNlAux_succ_nl fuel t (fun u hu => hne u hu)]
    have ht : listContains ['\n', '\n', '\n'] t = false := by
      simp only [listContains, Bool.or_eq_false_iff] at hnt
      exact hnt.2
    rw [ih (by simp only [List.length_cons] at hlen; omega) ht]
  | case5 fuel c t hc ih =>
    intro hlen hnt
    rw [collapseNlAux_succ_cons_ne fuel c t hc]
    have ht : listContains ['\n', '\n', '\n'] t = false := by
      simp only [listContains, Bool.or_eq_false_iff] at hnt
      exact hnt.2
    rw [ih (by simp only [List.length_cons] at hlen; omega) ht]

theorem stripEsc_no_esc (tf : List Char → Option (List Char)) (s : List Char)
    (hs : ∀ a ∈ s, a ≠ escCh) : stripEsc tf s = s :=
  stripEscAux_no_esc tf s.length s hs

theorem collapseNl_sub (s : List Char) : ∀ a ∈ collapseNl s, a ∈ s ∨ a = '\n' :=
  collapseNlAux_sub s.length s

theorem collapseNl_no_triple (s : List Char) :
    listContains ['\n', '\n', '\n'] (collapseNl s) = false :=
  collapseNlAux_no_triple s.length s le_rfl

theorem collapseNl_id_of_no_triple (s : List Char)
    (h : listContains ['\n', '\n', '\n'] s = false) : collapseNl s = s :=
  collapseNlAux_id_of_no_triple s.length s le_rfl h

end McpYeoman

namespace McpYeoman

/-- C7 counterexample: removing the inner color sequence from
`ESC[` + `ESC[31m` + `31m` assembles a new color escape sequence, so one
sanitization pass leaves an escape sequence behind and a second pass removes
it — `cleanOutput` is neither idempotent nor escape-free in general. -/
theorem c7_counterexample :
    cleanOutput (cleanOutput "\x1b[\x1b[31m31m") ≠ cleanOutput "\x1b[\x1b[31m31m"
    ∧ cleanOutput "\x1b[\x1b[31m31m" = "\x1b[31m"
    ∧ cleanOutput (cleanOutput "\x1b[\x1b[31m31m") = "" := by
  refine ⟨?_, rfl, rfl⟩
  decide

/-- C7 (amended): output sanitization is idempotent on every string that
contains no ESC (U+001B) character — in general a single pass can leave an
escape sequence assembled from fragments of removed ones, which only a
second pass removes — and for every input string the result contains no
carriage return and no run of three or more consecutive newlines (every
such run is collapsed to a single blank line). -/
theorem c7_amended (s : String) :
    ((∀ a ∈ s.data, a ≠ escCh) → cleanOutput (cleanOutput s) = cleanOutput s)
    ∧ '\r' ∉ (cleanOutput s).data
    ∧ listContains ['\n', '\n', '\n'] (cleanOutput s).data = false := by
  refine ⟨?_, ?_, ?_⟩
  · intro hs
    have hy : cleanOutput s = String.mk (collapseNl (fixCR (fixCRLF s.data))) := by
      unfold cleanOutput stripEsc
      rw [stripEscAux_no_esc colorTail s.data.length s.data hs]
      rw [stripEscAux_no_esc cursorVisTail s.data.length s.data hs]
      rw [stripEscAux_no_esc cursorMoveTail s.data.length s.data hs]
    have hnoCR : '\r' ∉ collapseNl (fixCR (fixCRLF s.data)) := by
      intro hmem
      rcases collapseNl_sub (fixCR (fixCRLF s.data)) '\r' hmem with h | h
      · exact fixCR_no_cr _ h
      · exact absurd h (by decide)
    have hnoEsc : ∀ a ∈ collapseNl (fixCR (fixCRLF s.data)), a ≠ escCh := by
      intro a ha
      rcases collapseNl_sub _ a ha with h | h
      · rcases fixCR_sub _ a h with h2 | h2
        · rcases fixCRLF_sub s.data a h2 with h3 | h3
          · exact hs a h3
          · subst h3; decide
        · subst h2; decide
      · subst h; decide
    have hnoTriple := collapseNl_no_triple (fixCR (fixCRLF s.data))
    have hsecond : cleanOutput (String.mk (collapseNl (fixCR (fixCRLF s.data))))
        = String.mk (collapseNl (fixCR (fixCRLF s.data))) := by
      unfold cleanOutput stripEsc
      rw [show (String.mk (collapseNl (fixCR (fixCRLF s.data)))).data
        = collapseNl (fixCR (fixCRLF s.data)) from rfl]
      rw [stripEscAux_no_esc colorTail _ _ hnoEsc,
        stripEscAux_no_esc cursorVisTail _ _ hnoEsc,
        stripEscAux_no_esc cursorMoveTail _ _ hnoEsc,
        fixCRLF_no_cr_id _ hnoCR, fixCR_no_cr_id _ hnoCR,
        collapseNl_id_of_no_triple _ hnoTriple]
    rw [hy, hsecond]
  · intro hmem
    rw [show (cleanOutput s).data = collapseNl (fixCR (fixCRLF
      (stripEsc cursorMoveTail (stripEsc cursorVisTail (stripEsc colorTail s.data))))) from rfl]
      at hmem
    rcases collapseNl_sub _ '\r' hmem with h | h
    · exact fixCR_no_cr _ h
    · exact absurd h (by decide)
  · rw [show (cleanOutput s).data = collapseNl (fixCR (fixCRLF
      (stripEsc cursorMoveTail (stripEsc cursorVisTail (stripEsc colorTail s.data))))) from rfl]
    exact collapseNl_no_triple _

theorem c7_witness :
    cleanOutput (cleanOutput "a\r\n\n\n\nb") = cleanOutput "a\r\n\n\n\nb"
    ∧ '\r' ∉ (cleanOutput "a\r\n\n\n\nb").data
    ∧ listContains ['\n', '\n', '\n'] (cleanOutput "a\r\n\n\n\nb").data = false :=
  ⟨(c7_amended "a\r\n\n\n\nb").1 (by decide),
   (c7_amended "a\r\n\n\n\nb").2.1,
   (c7_amended "a\r\n\n\n\nb").2.2⟩

end McpYeoman
